import Mathlib

/-!
Verification of the Kinect 3D video capture toolkit against its
natural-language specification.  The definitions below are shallow
embeddings of the C++ sources (FrameSource.cpp, FrameBuffer.h,
ProjectorBase.cpp, MultiplexedFrameSource.cpp, TiePointTool.cpp,
CalibrateCameras.cpp, CompressDepthFile.cpp).  Machine floating-point
values are embedded as exact rationals, machine integers as naturals
with explicit wrap-around where the C++ arithmetic can overflow.
-/

namespace Kinect

/-! ## Basic data model

`FrameSource::DepthCorrection::PixelCorrection` (FrameSource.h): a pair
of `float` scale and offset, applied as `depth*scale + offset`. -/

structure PixelCorrection where
  scale : ℚ
  offset : ℚ
deriving DecidableEq, Repr

/-- `PixelCorrection::correct` (FrameSource.h): `depth*scale+offset`. -/
def PixelCorrection.correct (pc : PixelCorrection) (depth : ℚ) : ℚ :=
  depth * pc.scale + pc.offset

/-- `FrameSource::DepthCorrection` (FrameSource.h): B-spline degree,
segment counts `numSegments[0]` (x) and `numSegments[1]` (y), and the
control-point array of `(numSegments[1]+degree)*(numSegments[0]+degree)`
entries, stored linearly in row-major order. -/
structure DepthCorrection where
  degree : ℕ
  segX : ℕ
  segY : ℕ
  controlPoints : List PixelCorrection
deriving DecidableEq, Repr

/-- The control-point count invariant maintained by every constructor in
FrameSource.cpp: `(numSegments[1]+degree)*(numSegments[0]+degree)`. -/
def DepthCorrection.wf (dc : DepthCorrection) : Prop :=
  dc.controlPoints.length = (dc.segY + dc.degree) * (dc.segX + dc.degree)

/-- `DepthCorrection::DepthCorrection(sDegree, sNumSegments)`
(FrameSource.cpp): allocates the control-point array and initializes
every entry to scale 1, offset 0. -/
def DepthCorrection.mk0 (sDegree : ℕ) (sSegX sSegY : ℕ) : DepthCorrection :=
  { degree := sDegree
    segX := sSegX
    segY := sSegY
    controlPoints :=
      List.replicate ((sSegY + sDegree) * (sSegX + sDegree)) ⟨1, 0⟩ }

/-! ## Serialized stream model (C7)

`IO::File` reads and writes of sized types are modelled as a token
stream; a `u32` token carries the value of a `Misc::UInt32`, an `f32`
token the value of a `Misc::Float32`. -/

inductive Token where
  | u32 (n : ℕ) : Token
  | f32 (q : ℚ) : Token
deriving DecidableEq, Repr

/-- `DepthCorrection::write` (FrameSource.cpp): writes `u32 degree`,
`u32 numSegments[0]`, `u32 numSegments[1]`, then for each control point
in array order its `f32` scale followed by its `f32` offset. -/
def DepthCorrection.write (dc : DepthCorrection) : List Token :=
  Token.u32 dc.degree :: Token.u32 dc.segX :: Token.u32 dc.segY ::
    dc.controlPoints.flatMap (fun cp => [Token.f32 cp.scale, Token.f32 cp.offset])

/-- Reading `n` control points, each as `f32` scale then `f32` offset
(the loop body of the file constructor in FrameSource.cpp). -/
def readControlPoints : ℕ → List Token → Option (List PixelCorrection × List Token)
  | 0, ts => some ([], ts)
  | n + 1, Token.f32 s :: Token.f32 o :: ts =>
      match readControlPoints n ts with
      | some (cps, rest) => some (⟨s, o⟩ :: cps, rest)
      | none => none
  | _ + 1, _ => none

/-- `DepthCorrection::DepthCorrection(IO::File&)` (FrameSource.cpp):
reads `u32 degree`, the two `u32` segment counts, then
`(numSegments[1]+degree)*(numSegments[0]+degree)` control points. -/
def DepthCorrection.read : List Token → Option (DepthCorrection × List Token)
  | Token.u32 d :: Token.u32 sx :: Token.u32 sy :: ts =>
      match readControlPoints ((sy + d) * (sx + d)) ts with
      | some (cps, rest) => some (⟨d, sx, sy, cps⟩, rest)
      | none => none
  | _ => none

/-! ## Lens distortion serialization (C8)

`FrameSource::IntrinsicParameters::readLensDistortion` and
`writeLensDistortion` (FrameSource.cpp).  The `LensDistortion`
parameter vector has 10 entries: center `(cx, cy)` at indices 0 and 1,
radial coefficients `kappa0..kappa5` at indices 2..7, tangential
coefficients `rho0, rho1` at indices 8 and 9.  The `Float64` stream is
modelled as a list of rationals. -/

abbrev ParameterVector : Type := Fin 10 → ℚ

/-- `IntrinsicParameters::readLensDistortion(file, newFormat)`
(FrameSource.cpp): reads the center, the first three radial
coefficients, then the remaining three radial coefficients if
`newFormat` (otherwise resets them to zero), then the two tangential
coefficients. -/
def readLensDistortion (newFormat : Bool) :
    List ℚ → Option (ParameterVector × List ℚ)
  | c0 :: c1 :: k0 :: k1 :: k2 :: ts =>
      if newFormat then
        match ts with
        | k3 :: k4 :: k5 :: r0 :: r1 :: rest =>
            some (![c0, c1, k0, k1, k2, k3, k4, k5, r0, r1], rest)
        | _ => none
      else
        match ts with
        | r0 :: r1 :: rest =>
            some (![c0, c1, k0, k1, k2, 0, 0, 0, r0, r1], rest)
        | _ => none
  | _ => none

/-- `IntrinsicParameters::writeLensDistortion` (FrameSource.cpp): writes
all `2+6+2` parameters in vector order. -/
def writeLensDistortion (pv : ParameterVector) : List ℚ :=
  (List.finRange 10).map pv

/-! ## FrameBuffer assignment (C10)

`FrameBuffer` (FrameBuffer.h): a handle holding a frame size, a pointer
to a reference-counted payload (null for an invalid handle), and a time
stamp.  Payload pointers are modelled as `Option ℕ`, with `none` for
the null pointer. -/

structure FrameBuffer where
  size : ℕ × ℕ
  buffer : Option ℕ
  timeStamp : ℚ
deriving DecidableEq, Repr

/-- `FrameBuffer::FrameBuffer(void)` (FrameBuffer.h): invalid handle
with size (0,0), null payload, time stamp 0. -/
def FrameBuffer.invalid : FrameBuffer := ⟨(0, 0), none, 0⟩

/-- `FrameBuffer::operator=` (FrameBuffer.h): when the two handles hold
different payload pointers, unreferences the old payload and copies the
frame size, the payload reference and the time stamp; when the payload
pointers are equal it does nothing. -/
def FrameBuffer.assign (target source : FrameBuffer) : FrameBuffer :=
  if target.buffer = source.buffer then target
  else { size := source.size, buffer := source.buffer, timeStamp := source.timeStamp }

/-! ## Multiplexed frame source (C2, C9)

`MultiplexedFrameSource` (MultiplexedFrameSource.cpp).  The wire
protocol carries little-endian `u32` and `f64` values; the pipe is
modelled as a list of typed wire values (after any byte swapping). -/

inductive WireVal where
  | u32 (n : ℕ) : WireVal
  | f64 (q : ℚ) : WireVal
deriving DecidableEq, Repr

/-- Result of the constructor's handshake
(`MultiplexedFrameSource::MultiplexedFrameSource`): whether byte
swapping was enabled on reads, the server's protocol version, the time
stamp offset and the number of sub-streams. -/
structure HandshakeResult where
  swapOnRead : Bool
  serverProtocolVersion : ℕ
  timeStampOffset : ℚ
  numStreams : ℕ
deriving DecidableEq, Repr

/-- The two values the constructor writes to the pipe before reading
anything: the endianness marker `0x12345678` and the client protocol
version `1`. -/
def clientHello : List WireVal := [WireVal.u32 0x12345678, WireVal.u32 1]

/-- The read half of `MultiplexedFrameSource::MultiplexedFrameSource`
(MultiplexedFrameSource.cpp): reads the server's endianness marker,
enables byte swapping if it is the byte-reversed marker `0x78563412`,
throws if it is neither marker, then reads the server protocol version,
the `f64` time stamp offset, and the `u32` sub-stream count in that
order.  `Except.error true` is the "unrecognized endianness" throw;
`Except.error false` marks a type-confused stream, which cannot occur
on inputs of the wire format. -/
def handshakeRead : List WireVal → Except Bool (HandshakeResult × List WireVal)
  | WireVal.u32 marker :: rest =>
      let swap := marker = 0x78563412
      if marker ≠ 0x78563412 ∧ marker ≠ 0x12345678 then Except.error true
      else
        match rest with
        | WireVal.u32 version :: WireVal.f64 offset :: WireVal.u32 n :: rest2 =>
            Except.ok (⟨swap, version, offset, n⟩, rest2)
        | _ => Except.error false
  | _ => Except.error false

/-! Demultiplexer state machine
(`MultiplexedFrameSource::receivingThreadMethod`).  Frame payloads are
abstract (`α`); the `frames` array of `2*numStreams` slots is modelled
as a total map from frame ids.  The missing-frame counters are
`unsigned int`, decremented without a zero check, so they wrap modulo
`2^32`. -/

/-- `--counter` on an `unsigned int`. -/
def wrapDec (n : ℕ) : ℕ := if n = 0 then 2 ^ 32 - 1 else n - 1

structure DemuxState (α : Type) where
  currentMetaFrameIndex : ℕ
  numMissingColorFrames : ℕ
  numMissingDepthFrames : ℕ
  frames : ℕ → α

/-- One received frame header plus its decoded frame body. -/
structure FrameEvent (α : Type) where
  metaFrameIndex : ℕ
  frameId : ℕ
  payload : α

/-- A dispatched frame: sub-stream index, kind (`false` = color,
`true` = depth), frame body. -/
abbrev Dispatched (α : Type) : Type := ℕ × Bool × α

/-- The dispatch pass of `receivingThreadMethod`: for each sub-stream
index `i` in increasing order, push the color frame `frames[i*2+0]`
to the stream's color callback, then the depth frame `frames[i*2+1]`
to its depth callback (for the streams that are alive and streaming
with a registered callback, as told by `colorCb` and `depthCb`). -/
def dispatchPass {α : Type} (numStreams : ℕ) (colorCb depthCb : ℕ → Bool)
    (frames : ℕ → α) : List (Dispatched α) :=
  (List.range numStreams).flatMap fun i =>
    (if colorCb i then [(i, false, frames (i * 2 + 0))] else []) ++
      (if depthCb i then [(i, true, frames (i * 2 + 1))] else [])

/-- One iteration of the receive loop of `receivingThreadMethod`: read
a frame header; if it starts a new meta frame, dispatch the completed
previous meta frame (only when both missing counters are zero) and
reset the counters; then store the frame body at `frames[frameId]` and
decrement the missing counter selected by the parity of `frameId`.
Returns the next state and the list of dispatched frames. -/
def demuxStep {α : Type} (numStreams : ℕ) (colorCb depthCb : ℕ → Bool)
    (st : DemuxState α) (ev : FrameEvent α) : DemuxState α × List (Dispatched α) :=
  let out : List (Dispatched α) :=
    if st.currentMetaFrameIndex ≠ ev.metaFrameIndex ∧
        st.numMissingColorFrames = 0 ∧ st.numMissingDepthFrames = 0 then
      dispatchPass numStreams colorCb depthCb st.frames
    else []
  let st1 : DemuxState α :=
    if st.currentMetaFrameIndex ≠ ev.metaFrameIndex then
      { st with currentMetaFrameIndex := ev.metaFrameIndex,
                numMissingColorFrames := numStreams,
                numMissingDepthFrames := numStreams }
    else st
  let st2 : DemuxState α :=
    if ev.frameId % 2 = 1 then
      { st1 with frames := Function.update st1.frames ev.frameId ev.payload,
                 numMissingDepthFrames := wrapDec st1.numMissingDepthFrames }
    else
      { st1 with frames := Function.update st1.frames ev.frameId ev.payload,
                 numMissingColorFrames := wrapDec st1.numMissingColorFrames }
  (st2, out)

/-- Running the receive loop over a list of events, collecting the
batch of frames dispatched at each iteration. -/
def demuxRun {α : Type} (numStreams : ℕ) (colorCb depthCb : ℕ → Bool)
    (st : DemuxState α) : List (FrameEvent α) → DemuxState α × List (List (Dispatched α))
  | [] => (st, [])
  | ev :: evs =>
      let (st1, out) := demuxStep numStreams colorCb depthCb st ev
      let (stf, outs) := demuxRun numStreams colorCb depthCb st1 evs
      (stf, out :: outs)

/-! ## Background capture and removal (C6)

CompressDepthFile.cpp.  Depth pixels are `unsigned short`; the capture
update `if(*bfPtr>*dfPtr-2) *bfPtr=*dfPtr-2;` compares in `int` (usual
arithmetic conversions) and truncates the stored value back to 16 bits,
so `*dfPtr-2` can be negative in the comparison yet wrap when stored. -/

/-- `Kinect::FrameSource::invalidDepth` (FrameSource.h): `0x07ff`. -/
def invalidDepth : ℕ := 0x07ff

/-- Truncation of an `int` value to `unsigned short`. -/
def wrap16 (z : ℤ) : ℕ := (z % 65536).toNat

/-- One background-capture update of a single pixel
(CompressDepthFile.cpp): if the background value exceeds the raw depth
minus 2 (computed in `int`), store the raw depth minus 2 (truncated to
`unsigned short`). -/
def captureStep (bf df : ℕ) : ℕ :=
  if (df : ℤ) - 2 < (bf : ℤ) then wrap16 ((df : ℤ) - 2) else bf

/-- The background value of one pixel after capturing a list of raw
depth values, starting from `invalidDepth` (CompressDepthFile.cpp). -/
def captureFold (raws : List ℕ) : ℕ :=
  raws.foldl captureStep invalidDepth

/-- One background-removal update of a single pixel
(CompressDepthFile.cpp): a raw depth at or beyond the background value
is replaced with `invalidDepth`. -/
def removeBackground (df bf : ℕ) : ℕ :=
  if bf ≤ df then invalidDepth else df

/-- The background value claimed by the spec: the minimum, over the
captured frames, of the raw depth minus 2, starting from
`invalidDepth`, computed in exact integer arithmetic. -/
def specBackgroundMin (raws : List ℕ) : ℤ :=
  (List.map (fun r : ℕ => (r : ℤ) - 2) raws).foldl min (invalidDepth : ℤ)

/-! ## Projector point projection (C3)

ProjectorBase.cpp and the intrinsic-parameter transforms of
FrameSource.cpp.  Projective transforms are 4x4 rational matrices
applied to homogeneous points with a final divide; `inverseTransform`
applies the matrix inverse (adjugate over determinant). -/

abbrev Vec3 : Type := ℚ × ℚ × ℚ

abbrev Mat4 : Type := Fin 4 → Fin 4 → ℚ

def mat4Mul (A B : Mat4) : Mat4 := fun i j => ∑ k, A i k * B k j

/-- The 3x3 minor of a 4x4 matrix obtained by deleting row `r` and
column `c`. -/
def mat4Minor (M : Mat4) (r c : Fin 4) : Fin 3 → Fin 3 → ℚ :=
  fun i j => M (r.succAbove i) (c.succAbove j)

def det3 (m : Fin 3 → Fin 3 → ℚ) : ℚ :=
  m 0 0 * (m 1 1 * m 2 2 - m 1 2 * m 2 1)
    - m 0 1 * (m 1 0 * m 2 2 - m 1 2 * m 2 0)
    + m 0 2 * (m 1 0 * m 2 1 - m 1 1 * m 2 0)

def det4 (M : Mat4) : ℚ :=
  ∑ j : Fin 4, (-1) ^ (j : ℕ) * M 0 j * det3 (mat4Minor M 0 j)

/-- Matrix inverse by the adjugate formula (the effect of the Geometry
library's projective-transform inversion). -/
def mat4Inv (M : Mat4) : Mat4 :=
  fun i j => ((-1) ^ ((i : ℕ) + (j : ℕ)) * det3 (mat4Minor M j i)) / det4 M

/-- Application of a projective transform to an affine 3D point:
multiply the homogeneous extension and divide by the weight. -/
def homApply (M : Mat4) (p : Vec3) : Vec3 :=
  let w := M 3 0 * p.1 + M 3 1 * p.2.1 + M 3 2 * p.2.2 + M 3 3
  ((M 0 0 * p.1 + M 0 1 * p.2.1 + M 0 2 * p.2.2 + M 0 3) / w,
   (M 1 0 * p.1 + M 1 1 * p.2.1 + M 1 2 * p.2.2 + M 1 3) / w,
   (M 2 0 * p.1 + M 2 1 * p.2.1 + M 2 2 * p.2.2 + M 2 3) / w)

/-- `PTransform::inverseTransform`: applies the inverse matrix. -/
def inverseTransform (M : Mat4) (p : Vec3) : Vec3 := homApply (mat4Inv M) p

/-- `FrameSource::IntrinsicParameters` (FrameSource.h): the depth
projection matrix, the depth camera's unprojection pinhole parameters
`fx, fy, sk, cx, cy`, and the depth lens distortion.  The lens
distortion's Newton-iterated `undistort` and its `isIdentity` test live
in the external Video library and are carried as opaque data. -/
structure IntrinsicParameters where
  depthProjection : Mat4
  fx : ℚ
  fy : ℚ
  sk : ℚ
  cx : ℚ
  cy : ℚ
  depthLensDistortionIsIdentity : Bool
  ldUndistort : ℚ × ℚ → ℚ × ℚ

/-- `IntrinsicParameters::undistortDepthPixel` (FrameSource.cpp):
transform the depth-image point to depth tangent space, undistort, and
transform back to depth-image space. -/
def undistortDepthPixel (ip : IntrinsicParameters) (p : ℚ × ℚ) : ℚ × ℚ :=
  let dtp1 := (p.2 - ip.cy) / ip.fy
  let dtp0 := (p.1 - ip.sk * dtp1 - ip.cx) / ip.fx
  let utp := ip.ldUndistort (dtp0, dtp1)
  (utp.1 * ip.fx + utp.2 * ip.sk + ip.cx, utp.2 * ip.fy + ip.cy)

/-- `ProjectorBase` (ProjectorBase.h): depth frame size, intrinsic and
extrinsic parameters, the cached combined world-space depth projection,
and the optional per-pixel depth correction buffer (row-major, one cell
per depth pixel). -/
structure ProjectorBase where
  depthSize : ℕ × ℕ
  intrinsicParameters : IntrinsicParameters
  extrinsicParameters : Mat4
  worldDepthProjection : Mat4
  depthCorrection : Option (ℕ → PixelCorrection)

/-- `ProjectorBase::ProjectorBase(FrameSource&)` (ProjectorBase.cpp):
stores the parameters and caches
`worldDepthProjection = extrinsicParameters * depthProjection`. -/
def mkProjectorBase (depthSize : ℕ × ℕ) (ip : IntrinsicParameters)
    (extrinsic : Mat4) (dc : Option (ℕ → PixelCorrection)) : ProjectorBase :=
  { depthSize := depthSize
    intrinsicParameters := ip
    extrinsicParameters := extrinsic
    worldDepthProjection := mat4Mul extrinsic ip.depthProjection
    depthCorrection := dc }

/-- `ProjectorBase::projectPoint` (ProjectorBase.cpp). -/
def projectPoint (pb : ProjectorBase) (p : Vec3) : Vec3 :=
  let dip := inverseTransform pb.worldDepthProjection p
  let dip :=
    if ¬ pb.intrinsicParameters.depthLensDistortionIsIdentity then
      let up := undistortDepthPixel pb.intrinsicParameters (dip.1, dip.2.1)
      (up.1, up.2, dip.2.2)
    else dip
  match pb.depthCorrection with
  | none => dip
  | some table =>
      let dipx := ⌊dip.1⌋
      let dipy := ⌊dip.2.1⌋
      if 0 ≤ dipx ∧ dipx.toNat < pb.depthSize.1 ∧ 0 ≤ dipy ∧ dipy.toNat < pb.depthSize.2 then
        let pc := table (dipy.toNat * pb.depthSize.1 + dipx.toNat)
        (dip.1, dip.2.1, (dip.2.2 - pc.offset) / pc.scale)
      else dip

/-- The contract for `project_point` stated by the spec, staged exactly
as the claim reads: inverse-transform through the composition
`extrinsic * depth_projection`; only if the depth lens distortion is
not the identity, replace the x and y components by the undistorted
depth pixel position; only if a depth correction table is present and
the floored (x, y) lies inside the depth frame, replace the depth
component `d` by `(d - offset)/scale` from that pixel's cell. -/
def projectPointSpec (depthSize : ℕ × ℕ) (ip : IntrinsicParameters)
    (extrinsic : Mat4) (dc : Option (ℕ → PixelCorrection)) (p : Vec3) : Vec3 :=
  let q := inverseTransform (mat4Mul extrinsic ip.depthProjection) p
  let q2 :=
    if ip.depthLensDistortionIsIdentity then q
    else
      let up := undistortDepthPixel ip (q.1, q.2.1)
      (up.1, up.2, q.2.2)
  match dc with
  | none => q2
  | some table =>
      if 0 ≤ ⌊q2.1⌋ ∧ (⌊q2.1⌋).toNat < depthSize.1 ∧
          0 ≤ ⌊q2.2.1⌋ ∧ (⌊q2.2.1⌋).toNat < depthSize.2 then
        let pc := table ((⌊q2.2.1⌋).toNat * depthSize.1 + (⌊q2.1⌋).toNat)
        (q2.1, q2.2.1, (q2.2.2 - pc.offset) / pc.scale)
      else q2

/-! ## Tie-point calibration solver (C1)

TiePointTool.cpp `calibrateCameras` and CalibrateCameras.cpp `main`.
The Jacobi eigen-iteration lives in the external Math library; its
result is carried as an abstract pair of an eigenvector matrix `Q`
(eigenvectors in columns) and an eigenvalue column vector `e`. -/

abbrev Mat12 : Type := Fin 12 → Fin 12 → ℚ

structure TiePointPair where
  cameraPoint : Fin 3 → ℚ
  colorPoint : Fin 2 → ℚ

/-- The two linear-system rows `eq[0]` and `eq[1]` entered for one tie
point pair (TiePointTool.cpp, CalibrateCameras.cpp), with the color
point normalized by the color frame size. -/
def tiePointEq (W H : ℚ) (tp : TiePointPair) : Fin 2 → Fin 12 → ℚ :=
  let s := tp.colorPoint 0 / W
  let t := tp.colorPoint 1 / H
  ![![tp.cameraPoint 0, tp.cameraPoint 1, tp.cameraPoint 2, 1, 0, 0, 0, 0,
      -(s * tp.cameraPoint 0), -(s * tp.cameraPoint 1), -(s * tp.cameraPoint 2), -s],
    ![0, 0, 0, 0, tp.cameraPoint 0, tp.cameraPoint 1, tp.cameraPoint 2, 1,
      -(t * tp.cameraPoint 0), -(t * tp.cameraPoint 1), -(t * tp.cameraPoint 2), -t]]

/-- The accumulation loop building the 12x12 normal matrix `a`:
starting from zero, for each tie point pair and each of its two rows,
add `eq[row][i]*eq[row][j]` to `a(i,j)`. -/
def accumulateNormalMatrix (W H : ℚ) (tps : List TiePointPair) : Mat12 :=
  tps.foldl
    (fun a tp => fun i j =>
      a i j + (tiePointEq W H tp 0 i * tiePointEq W H tp 0 j +
        tiePointEq W H tp 1 i * tiePointEq W H tp 1 j))
    (fun _ _ => 0)

/-- The smallest-magnitude eigenvalue search (TiePointTool.cpp): start
from index 0 and scan indices 1..11, keeping the index of the smallest
absolute eigenvalue seen so far. -/
def minAbsEigenIndex (e : Fin 12 → ℚ) : Fin 12 :=
  ((List.finRange 12).drop 1).foldl (fun best i => if |e best| > |e i| then i else best) 0

/-- Conversion of row/column position to eigenvector component index:
`hom(i,j)` comes from eigenvector component `i*4+j`. -/
def homIndex (i : Fin 3) (j : Fin 4) : Fin 12 :=
  ⟨(i : ℕ) * 4 + (j : ℕ), by omega⟩

/-- The normalized homography (TiePointTool.cpp): column `k` of the
eigenvector matrix, reshaped 3x4 and divided by component 11. -/
def homography (Q : Mat12) (k : Fin 12) : Fin 3 → Fin 4 → ℚ :=
  fun i j => Q (homIndex i j) k / Q 11 k

/-- Extension of the 3x4 homography to the 4x4 color projection
(TiePointTool.cpp): rows 0 and 1 are rows 0 and 1 of the homography,
row 2 is `(0,0,1,0)`, row 3 is row 2 of the homography. -/
def extendHomography (h : Fin 3 → Fin 4 → ℚ) : Mat4 :=
  ![h 0, h 1, ![0, 0, 1, 0], h 2]

/-- The color projection persisted by `calibrateCameras`
(TiePointTool.cpp): the extended homography of the smallest-magnitude
eigenvector, right-multiplied by the depth projection matrix. -/
def persistedColorProjection (Q : Mat12) (e : Fin 12 → ℚ) (depthProjection : Mat4) : Mat4 :=
  mat4Mul (extendHomography (homography Q (minAbsEigenIndex e))) depthProjection

/-! ## Depth correction B-spline evaluation (C4, C5)

FrameSource.cpp: the single-pixel query
`DepthCorrection::getPixelCorrection(pixel, frameSize)` evaluates the
tensor-product B-spline through the Cox-deBoor basis recursion (helper
`bs`, scratch array `float bsTemp[21]`), while the dense-table builder
`DepthCorrection::getPixelCorrection(frameSize)` evaluates it through
deBoor's algorithm (helper `bspline`, scratch array
`PixelCorrection bsTemp[16][16]`).  Both are embedded channelwise (the
loops treat the scale and offset channels with identical formulas). -/

/-- The Cox-deBoor recursion computed by the level loop of helper `bs`
(FrameSource.cpp): the level-`n` scratch entry whose support starts at
knot `i`.  Level 0 is the indicator of `[i, i+1)`; the level update is
`((x-i)*prev[0] + ((i+n+1)-x)*prev[1])/n`. -/
def coxN : ℕ → ℤ → ℚ → ℚ
  | 0, i, x => if (i : ℚ) ≤ x ∧ x < (i : ℚ) + 1 then 1 else 0
  | n + 1, i, x =>
      ((x - (i : ℚ)) * coxN n i x + (((i : ℚ) + (n : ℚ) + 2) - x) * coxN n (i + 1) x) /
        ((n : ℚ) + 1)

/-- Helper `bs(i, n, x)` (FrameSource.cpp): returns 0 outside the
support `[i, i+n+1)`, otherwise runs the Cox-deBoor recursion. -/
def bs (i : ℤ) (n : ℕ) (x : ℚ) : ℚ :=
  if x < (i : ℚ) ∨ (i : ℚ) + (n : ℚ) + 1 ≤ x then 0 else coxN n i x

/-- Conversion of a pixel coordinate to B-spline space
(FrameSource.cpp): `((pixel+0.5)*numSegments)/frameSize`. -/
def splineCoord (pixel seg frameSize : ℕ) : ℚ :=
  (((pixel : ℚ) + 1/2) * (seg : ℚ)) / (frameSize : ℚ)

/-- Control-point array access `controlPoints[k]`. -/
def DepthCorrection.cpAt (dc : DepthCorrection) (k : ℕ) : PixelCorrection :=
  dc.controlPoints.getD k ⟨0, 0⟩

/-- `DepthCorrection::getPixelCorrection(pixel, frameSize)`
(FrameSource.cpp): the sum over the whole control-point grid of
`controlPoints[i*maxj+j] * bs(i-degree, degree, d1) * bs(j-degree,
degree, d0)`, per channel. -/
def DepthCorrection.getPixelCorrection (dc : DepthCorrection) (px py W h : ℕ) :
    PixelCorrection :=
  let d0 := splineCoord px dc.segX W
  let d1 := splineCoord py dc.segY h
  let maxi := dc.segY + dc.degree
  let maxj := dc.segX + dc.degree
  { scale := ∑ i in Finset.range maxi, ∑ j in Finset.range maxj,
      (dc.cpAt (i * maxj + j)).scale * bs ((i : ℤ) - (dc.degree : ℤ)) dc.degree d1 *
        bs ((j : ℤ) - (dc.degree : ℤ)) dc.degree d0,
    offset := ∑ i in Finset.range maxi, ∑ j in Finset.range maxj,
      (dc.cpAt (i * maxj + j)).offset * bs ((i : ℤ) - (dc.degree : ℤ)) dc.degree d1 *
        bs ((j : ℤ) - (dc.degree : ℤ)) dc.degree d0 }

/-- The initial scratch array of helper `bspline` (FrameSource.cpp):
`bsTemp[i][j] = controlPoints[(i0+i)*(numSegments[0]+degree)+(j0+j)]`,
one channel. -/
def deBoorInit (cp : ℕ → ℚ) (rowLength i0 j0 : ℕ) : ℕ → ℕ → ℚ :=
  fun i j => cp ((i0 + i) * rowLength + (j0 + j))

/-- The x-direction half of one level of deBoor's algorithm (helper
`bspline`, FrameSource.cpp) at segment width `sd`: entries `[i][j]`
with `i ≤ sd`, `j < sd` become `w1*old[i][j+1] + w0*old[i][j]` with
`w0 = ((j0+j+1)-x)/sd`, `w1 = 1-w0`; other entries are untouched. -/
def xCollapse (sd j0 : ℕ) (x : ℚ) (g : ℕ → ℕ → ℚ) : ℕ → ℕ → ℚ :=
  fun i j =>
    if i ≤ sd ∧ j < sd then
      (1 - (((j0 : ℚ) + (j : ℚ) + 1) - x) / (sd : ℚ)) * g i (j + 1) +
        ((((j0 : ℚ) + (j : ℚ) + 1) - x) / (sd : ℚ)) * g i j
    else g i j

/-- The y-direction half of one level of deBoor's algorithm (helper
`bspline`, FrameSource.cpp) at segment width `sd`: entries `[i][j]`
with `i < sd`, `j ≤ sd` become `w1*old[i+1][j] + w0*old[i][j]` with
`w0 = ((i0+i+1)-y)/sd`. -/
def yCollapse (sd i0 : ℕ) (y : ℚ) (g : ℕ → ℕ → ℚ) : ℕ → ℕ → ℚ :=
  fun i j =>
    if i < sd ∧ j ≤ sd then
      (1 - (((i0 : ℚ) + (i : ℚ) + 1) - y) / (sd : ℚ)) * g (i + 1) j +
        ((((i0 : ℚ) + (i : ℚ) + 1) - y) / (sd : ℚ)) * g i j
    else g i j

/-- The level loop of helper `bspline` (FrameSource.cpp): the segment
width runs `degree, degree-1, ..., 1`, each level collapsing first in
x, then in y. -/
def deBoorSteps (j0 i0 : ℕ) (x y : ℚ) : ℕ → (ℕ → ℕ → ℚ) → (ℕ → ℕ → ℚ)
  | 0, g => g
  | sd + 1, g => deBoorSteps j0 i0 x y sd (yCollapse (sd + 1) i0 y (xCollapse (sd + 1) j0 x g))

/-- Helper `bspline(degree, numSegments, controlPoints, x, y)`
(FrameSource.cpp), one channel: seed the scratch array from the
control-point window anchored at `(floor(y), floor(x))`, run the level
loop, return scratch entry `[0][0]`. -/
def bspline (degree segX : ℕ) (cp : ℕ → ℚ) (x y : ℚ) : ℚ :=
  deBoorSteps (⌊x⌋).toNat (⌊y⌋).toNat x y degree
    (deBoorInit cp (segX + degree) (⌊y⌋).toNat (⌊x⌋).toNat) 0 0

/-- One entry of the dense per-pixel table produced by
`DepthCorrection::getPixelCorrection(frameSize)` (FrameSource.cpp). -/
def DepthCorrection.tableEntry (dc : DepthCorrection) (px py W h : ℕ) : PixelCorrection :=
  let dx := splineCoord px dc.segX W
  let dy := splineCoord py dc.segY h
  { scale := bspline dc.degree dc.segX (fun k => (dc.cpAt k).scale) dx dy,
    offset := bspline dc.degree dc.segX (fun k => (dc.cpAt k).offset) dx dy }

/-- The scratch-array indices accessed by helper `bs` at degree `n`
(FrameSource.cpp): the init loop writes `bsTemp[j]` for `j ≤ n`; level
`ni+1` updates `bsTemp[j]` from `bsTemp[j+1]` for `j ≤ n-(ni+1)`.  The
scratch array holds 21 entries (comment: maximum degree is 20). -/
def bsScratchAccesses (n : ℕ) : List ℕ :=
  List.range (n + 1) ++
    (List.range n).flatMap (fun ni => (List.range (n - ni)).flatMap (fun j => [j, j + 1]))

/-- The scratch-array index pairs accessed by helper `bspline` at
degree `d` (FrameSource.cpp): the init loop writes `bsTemp[i][j]` for
`i, j ≤ d`; the level at width `sd = d - ni` updates `[i][j]` from
`[i][j+1]` (x half, `j < sd`, `i ≤ sd`) and `[i][j]` from `[i+1][j]`
(y half, `i < sd`, `j ≤ sd`); the result is read from `[0][0]`.  The
scratch array is 16 by 16 (comment: maximum degree is 15). -/
def bsplineScratchAccesses (d : ℕ) : List (ℕ × ℕ) :=
  ((List.range (d + 1)).flatMap fun i => (List.range (d + 1)).map fun j => (i, j)) ++
    ((List.range d).flatMap fun ni =>
      ((List.range (d - ni)).flatMap fun j =>
        (List.range (d - ni + 1)).flatMap fun i => [(i, j), (i, j + 1)]) ++
        ((List.range (d - ni)).flatMap fun i =>
          (List.range (d - ni + 1)).flatMap fun j => [(i, j), (i + 1, j)])) ++
    [(0, 0)]

/-- The control-point array indices read by helper `bspline`
(FrameSource.cpp): `(i0+i)*(numSegments[0]+degree)+(j0+j)` for
`i, j ≤ degree`. -/
def bsplineControlPointAccesses (d rowLength i0 j0 : ℕ) : List ℕ :=
  (List.range (d + 1)).flatMap fun i =>
    (List.range (d + 1)).map fun j => (i0 + i) * rowLength + (j0 + j)

end Kinect

/-! # Theorems -/

namespace Kinect

theorem readControlPoints_append (cps : List PixelCorrection) (rest : List Token) :
    readControlPoints cps.length
      (cps.flatMap (fun cp => [Token.f32 cp.scale, Token.f32 cp.offset]) ++ rest) =
      some (cps, rest) := by
  induction cps with
  | nil => rfl
  | cons cp cps ih =>
      have hshape :
          ((cp :: cps).flatMap (fun cp => [Token.f32 cp.scale, Token.f32 cp.offset]) ++ rest)
            = Token.f32 cp.scale :: Token.f32 cp.offset ::
              (cps.flatMap (fun cp => [Token.f32 cp.scale, Token.f32 cp.offset]) ++ rest) := by
        simp
      rw [List.length_cons, hshape]
      simp only [readControlPoints]
      rw [ih]


/-- C9: the multiplexed source's constructor first writes the `u32`
endianness marker `0x12345678` followed by the `u32` client protocol
version 1; it enables byte swapping on reads iff the server's marker
reads as the byte-reversed value `0x78563412`; it raises an error iff
the server's marker is neither `0x12345678` nor `0x78563412`; and after
a successful handshake it has read the server protocol version, the
`f64` time-base offset and the `u32` sub-stream count in that order. -/
theorem multiplexed_handshake (m v : ℕ) (o : ℚ) (n : ℕ) (rest : List WireVal) :
    clientHello = [WireVal.u32 0x12345678, WireVal.u32 1] ∧
      (m = 0x78563412 →
        handshakeRead (WireVal.u32 m :: WireVal.u32 v :: WireVal.f64 o :: WireVal.u32 n :: rest) =
          Except.ok (⟨true, v, o, n⟩, rest)) ∧
      (m = 0x12345678 →
        handshakeRead (WireVal.u32 m :: WireVal.u32 v :: WireVal.f64 o :: WireVal.u32 n :: rest) =
          Except.ok (⟨false, v, o, n⟩, rest)) ∧
      (m ≠ 0x12345678 ∧ m ≠ 0x78563412 →
        handshakeRead (WireVal.u32 m :: WireVal.u32 v :: WireVal.f64 o :: WireVal.u32 n :: rest) =
          Except.error true) ∧
      (∀ r rest2,
        handshakeRead (WireVal.u32 m :: WireVal.u32 v :: WireVal.f64 o :: WireVal.u32 n :: rest) =
            Except.ok (r, rest2) →
          (r.swapOnRead = true ↔ m = 0x78563412)) := by
  refine ⟨rfl, ?_, ?_, ?_, ?_⟩
  · intro hm
    subst hm
    rfl
  · intro hm
    subst hm
    rfl
  · intro ⟨h1, h2⟩
    simp only [handshakeRead, ne_eq]
    rw [if_pos ⟨h2, h1⟩]
  · intro r rest2 hok
    by_cases h1 : m = 0x78563412
    · subst h1
      rw [show handshakeRead
          (WireVal.u32 0x78563412 :: WireVal.u32 v :: WireVal.f64 o :: WireVal.u32 n :: rest) =
          Except.ok (⟨true, v, o, n⟩, rest) from rfl] at hok
      obtain ⟨hr, -⟩ := Prod.mk.injEq .. ▸ (Except.ok.injEq .. ▸ hok)
      rw [← hr]
      simp
    · by_cases h2 : m = 0x12345678
      · subst h2
        simp only [handshakeRead, ne_eq] at hok
        rw [if_neg (by simp)] at hok
        obtain ⟨hr, -⟩ := Prod.mk.injEq .. ▸ (Except.ok.injEq .. ▸ hok)
        rw [← hr]
        simp [h1]
      · simp only [handshakeRead, ne_eq] at hok
        rw [if_pos ⟨h1, h2⟩] at hok
        exact absurd hok (by simp)

/-- C2: the receive thread dispatches the `2N` frames of a meta frame
to the per-stream callbacks in one pass exactly when it reads a frame
header carrying a different meta frame index and both missing-frame
counters are zero; the dispatched batch lists the sub-streams in
increasing index order with each stream's color frame before its depth
frame; and in a full run every dispatched batch is such a monolithic
pass, so all frames of a completed meta frame are published before any
frame of a later one. -/
theorem demux_dispatch_batches {α : Type} (N : ℕ) (hN : 0 < N)
    (st : DemuxState α) (ev : FrameEvent α) :
    ((demuxStep N (fun _ => true) (fun _ => true) st ev).2 ≠ [] ↔
        st.currentMetaFrameIndex ≠ ev.metaFrameIndex ∧
          st.numMissingColorFrames = 0 ∧ st.numMissingDepthFrames = 0) ∧
      (st.currentMetaFrameIndex ≠ ev.metaFrameIndex ∧
          st.numMissingColorFrames = 0 ∧ st.numMissingDepthFrames = 0 →
        (demuxStep N (fun _ => true) (fun _ => true) st ev).2 =
          (List.range N).flatMap
            (fun i => [(i, false, st.frames (i * 2)), (i, true, st.frames (i * 2 + 1))])) ∧
      (∀ (st0 : DemuxState α) (evs : List (FrameEvent α)),
        ∀ b ∈ (demuxRun N (fun _ => true) (fun _ => true) st0 evs).2,
          b = [] ∨ ∃ f : ℕ → α, b =
            (List.range N).flatMap
              (fun i => [(i, false, f (i * 2)), (i, true, f (i * 2 + 1))])) := by
  have hpass : ∀ f : ℕ → α, dispatchPass N (fun _ => true) (fun _ => true) f =
      (List.range N).flatMap
        (fun i => [(i, false, f (i * 2)), (i, true, f (i * 2 + 1))]) := by
    intro f
    simp [dispatchPass]
  have hne : ∀ f : ℕ → α, dispatchPass N (fun _ => true) (fun _ => true) f ≠ [] := by
    intro f
    rw [hpass f]
    refine List.ne_nil_of_mem (a := (0, false, f 0)) ?_
    rw [List.mem_flatMap]
    exact ⟨0, List.mem_range.mpr hN, by simp⟩
  have hout : ∀ (s : DemuxState α) (e : FrameEvent α),
      (demuxStep N (fun _ => true) (fun _ => true) s e).2 =
        if s.currentMetaFrameIndex ≠ e.metaFrameIndex ∧
            s.numMissingColorFrames = 0 ∧ s.numMissingDepthFrames = 0 then
          dispatchPass N (fun _ => true) (fun _ => true) s.frames
        else [] := fun _ _ => rfl
  refine ⟨?_, ?_, ?_⟩
  · rw [hout]
    by_cases hc : st.currentMetaFrameIndex ≠ ev.metaFrameIndex ∧
        st.numMissingColorFrames = 0 ∧ st.numMissingDepthFrames = 0
    · rw [if_pos hc]
      exact ⟨fun _ => hc, fun _ => hne st.frames⟩
    · rw [if_neg hc]
      simp [hc]
  · intro hc
    rw [hout, if_pos hc, hpass]
  · intro st0 evs
    induction evs generalizing st0 with
    | nil => simp [demuxRun]
    | cons e evs ih =>
        intro b hb
        simp only [demuxRun] at hb
        rcases List.mem_cons.mp hb with hb1 | hb2
        · subst hb1
          rw [hout]
          by_cases hc : st0.currentMetaFrameIndex ≠ e.metaFrameIndex ∧
              st0.numMissingColorFrames = 0 ∧ st0.numMissingDepthFrames = 0
          · rw [if_pos hc, hpass]
            exact Or.inr ⟨st0.frames, rfl⟩
          · rw [if_neg hc]
            exact Or.inl rfl
        · exact ih _ b hb2

/-- C7: `DepthCorrection::write` emits exactly `u32 degree`, `u32 segX`,
`u32 segY` followed by `(segX+degree)*(segY+degree)` pairs of `f32`
scale and `f32` offset in array (row-major) order, and reading that
token sequence back with the file constructor reconstructs an object
with equal degree, equal segment counts and equal control points, so a
subsequent write produces identical output. -/
theorem depthCorrection_write_read_roundtrip (dc : DepthCorrection) (rest : List Token)
    (h : dc.wf) :
    dc.write = Token.u32 dc.degree :: Token.u32 dc.segX :: Token.u32 dc.segY ::
        dc.controlPoints.flatMap (fun cp => [Token.f32 cp.scale, Token.f32 cp.offset]) ∧
      dc.controlPoints.length = (dc.segX + dc.degree) * (dc.segY + dc.degree) ∧
      DepthCorrection.read (dc.write ++ rest) = some (dc, rest) ∧
      ∀ dc2 rest2, DepthCorrection.read (dc.write ++ rest) = some (dc2, rest2) →
        dc2.write = dc.write := by
  have hlen : dc.controlPoints.length = (dc.segY + dc.degree) * (dc.segX + dc.degree) := h
  have hread : DepthCorrection.read (dc.write ++ rest) = some (dc, rest) := by
    show DepthCorrection.read
      (Token.u32 dc.degree :: Token.u32 dc.segX :: Token.u32 dc.segY ::
        dc.controlPoints.flatMap (fun cp => [Token.f32 cp.scale, Token.f32 cp.offset]) ++ rest)
      = some (dc, rest)
    simp only [DepthCorrection.read, ← hlen, List.cons_append, readControlPoints_append]
  refine ⟨rfl, by rw [hlen]; ring, hread, ?_⟩
  intro dc2 rest2 h2
  rw [hread] at h2
  obtain ⟨h3, -⟩ := Prod.mk.injEq .. ▸ (Option.some.injEq .. ▸ h2)
  rw [h3]

/-- Witness for C7 at a concrete depth-correction object. -/
theorem depthCorrection_write_read_roundtrip_witness :
    (DepthCorrection.mk0 1 1 1).wf ∧
      DepthCorrection.read ((DepthCorrection.mk0 1 1 1).write ++ []) =
        some (DepthCorrection.mk0 1 1 1, []) :=
  ⟨by simp [DepthCorrection.wf, DepthCorrection.mk0],
    (depthCorrection_write_read_roundtrip (DepthCorrection.mk0 1 1 1) []
      (by simp [DepthCorrection.wf, DepthCorrection.mk0])).2.2.1⟩

/-- C8: `readLensDistortion` with the newer-format flag reads exactly 10
values in order `cx, cy, kappa0..kappa5, rho0, rho1`; with the legacy
flag it reads only 7 values (`cx, cy, kappa0..kappa2, rho0, rho1`) and
sets `kappa3, kappa4, kappa5` to zero; `writeLensDistortion` always
writes all 10 parameters in the newer-format order. -/
theorem readLensDistortion_formats
    (c0 c1 k0 k1 k2 k3 k4 k5 r0 r1 : ℚ) (rest : List ℚ) :
    readLensDistortion true (c0 :: c1 :: k0 :: k1 :: k2 :: k3 :: k4 :: k5 :: r0 :: r1 :: rest) =
        some (![c0, c1, k0, k1, k2, k3, k4, k5, r0, r1], rest) ∧
      readLensDistortion false (c0 :: c1 :: k0 :: k1 :: k2 :: r0 :: r1 :: rest) =
        some (![c0, c1, k0, k1, k2, 0, 0, 0, r0, r1], rest) ∧
      writeLensDistortion (![c0, c1, k0, k1, k2, k3, k4, k5, r0, r1]) =
        [c0, c1, k0, k1, k2, k3, k4, k5, r0, r1] := by
  refine ⟨rfl, rfl, ?_⟩
  simp [writeLensDistortion, List.finRange_succ_eq_map]

/-- C10: `FrameBuffer::operator=` leaves the target's size and time
stamp unchanged whenever target and source refer to the same payload
pointer; in particular assigning one invalid frame buffer to another
invalid one does not copy the source's time stamp, even though
assignment between handles with distinct payloads copies size, payload
reference and time stamp. -/
theorem frameBuffer_assign_same_payload (target source : FrameBuffer)
    (hsame : target.buffer = source.buffer) :
    (FrameBuffer.assign target source).size = target.size ∧
      (FrameBuffer.assign target source).timeStamp = target.timeStamp ∧
      (∀ s2 t2 : FrameBuffer, s2.buffer = none → t2.buffer = none →
        (FrameBuffer.assign t2 s2).timeStamp = t2.timeStamp) ∧
      (∀ s2 t2 : FrameBuffer, t2.buffer ≠ s2.buffer →
        FrameBuffer.assign t2 s2 =
          { size := s2.size, buffer := s2.buffer, timeStamp := s2.timeStamp }) := by
  refine ⟨?_, ?_, ?_, ?_⟩
  · rw [FrameBuffer.assign, if_pos hsame]
  · rw [FrameBuffer.assign, if_pos hsame]
  · intro s2 t2 hs ht
    rw [FrameBuffer.assign, if_pos (ht.trans hs.symm)]
  · intro s2 t2 hne
    rw [FrameBuffer.assign, if_neg hne]

/-- Witness for C10: assigning an invalid handle with a nonzero time
stamp to the invalid handle leaves the target's time stamp at 0. -/
theorem frameBuffer_assign_same_payload_witness :
    (FrameBuffer.assign FrameBuffer.invalid ⟨(7, 5), none, 42⟩).timeStamp = 0 :=
  (frameBuffer_assign_same_payload FrameBuffer.invalid ⟨(7, 5), none, 42⟩ rfl).2.1

end Kinect

namespace Kinect

theorem captureFold_min (raws : List ℕ) : ∀ bf : ℕ, bf < 65536 →
    (∀ r ∈ raws, 2 ≤ r ∧ r < 65536) →
    ((raws.foldl captureStep bf : ℕ) : ℤ) =
      (List.map (fun r : ℕ => (r : ℤ) - 2) raws).foldl min (bf : ℤ) := by
  induction raws with
  | nil => intro bf _ _; rfl
  | cons df raws ih =>
      intro bf hbf hall
      obtain ⟨hdf2, hdf16⟩ := hall df (List.mem_cons_self df raws)
      have hstep : ((captureStep bf df : ℕ) : ℤ) = min (bf : ℤ) ((df : ℤ) - 2) := by
        rw [captureStep]
        by_cases h : (df : ℤ) - 2 < (bf : ℤ)
        · rw [if_pos h, wrap16]
          have h0 : (0 : ℤ) ≤ (df : ℤ) - 2 := by
            have : (2 : ℤ) ≤ (df : ℤ) := by exact_mod_cast hdf2
            omega
          have h1 : (df : ℤ) - 2 < 65536 := by
            have : (df : ℤ) < 65536 := by exact_mod_cast hdf16
            omega
          rw [Int.emod_eq_of_lt h0 h1, Int.toNat_of_nonneg h0]
          exact (min_eq_right h.le).symm
        · rw [if_neg h]
          exact (min_eq_left (not_lt.mp h)).symm
      have hstep16 : captureStep bf df < 65536 := by
        have := hstep
        by_cases h : (df : ℤ) - 2 < (bf : ℤ)
        · have hle : ((captureStep bf df : ℕ) : ℤ) ≤ (df : ℤ) - 2 := by
            rw [hstep]; exact min_le_right _ _
          have : (df : ℤ) < 65536 := by exact_mod_cast hdf16
          omega
        · have hle : ((captureStep bf df : ℕ) : ℤ) ≤ (bf : ℤ) := by
            rw [hstep]; exact min_le_left _ _
          have : (bf : ℤ) < 65536 := by exact_mod_cast hbf
          omega
      rw [List.foldl_cons, List.map_cons, List.foldl_cons,
        ih (captureStep bf df) hstep16 (fun r hr => hall r (List.mem_cons_of_mem df hr)),
        hstep]

/-- C6 counterexample: the claim fails on raw depth values below 2.
Capturing the two frames with raw depths 0 then 1000 at a pixel yields
background 998, while the per-pixel minimum of raw minus 2 starting
from `INVALID_DEPTH` is -2 (65534 as a stored 16-bit value); moreover
the result depends on the frame order, which no minimum does. -/
theorem background_capture_not_min :
    captureFold [0, 1000] = 998 ∧
      specBackgroundMin [0, 1000] = -2 ∧
      ((captureFold [0, 1000] : ℕ) : ℤ) ≠ specBackgroundMin [0, 1000] ∧
      captureFold [0, 1000] ≠ wrap16 (specBackgroundMin [0, 1000]) ∧
      captureFold [0, 1000] ≠ captureFold [1000, 0] := by
  refine ⟨?_, ?_, ?_, ?_, ?_⟩ <;> decide

/-- C6 (amended): when every captured raw depth value is at least 2
(and a valid 16-bit value), each background pixel ends up as the
per-pixel minimum over the captured frames of the raw depth minus 2,
starting from `INVALID_DEPTH`; and background removal replaces a frame
pixel with `INVALID_DEPTH` if and only if its raw depth is greater than
or equal to the background value at that pixel, leaving it unchanged
otherwise. -/
theorem background_capture_removal (raws : List ℕ)
    (hall : ∀ r ∈ raws, 2 ≤ r ∧ r < 65536) :
    ((captureFold raws : ℕ) : ℤ) = specBackgroundMin raws ∧
      ∀ df bf : ℕ,
        (bf ≤ df → removeBackground df bf = invalidDepth) ∧
        (df < bf → removeBackground df bf = df) := by
  constructor
  · exact captureFold_min raws invalidDepth (by decide) hall
  · intro df bf
    constructor
    · intro h; rw [removeBackground, if_pos h]
    · intro h; rw [removeBackground, if_neg (not_le.mpr h)]

/-- Witness for C6 at the concrete capture sequence 1000, 500. -/
theorem background_capture_removal_witness :
    (∀ r ∈ [1000, 500], 2 ≤ r ∧ r < 65536) ∧
      ((captureFold [1000, 500] : ℕ) : ℤ) = specBackgroundMin [1000, 500] ∧
      captureFold [1000, 500] = 498 :=
  ⟨by decide, (background_capture_removal [1000, 500] (by decide)).1, by decide⟩

/-- C3: `projectPoint` first applies the inverse of the composed
transform `extrinsic * depth_projection` (the cached
`worldDepthProjection`), then, only if the depth lens distortion is not
the identity, replaces the x and y components by the undistorted depth
pixel position, and finally, only if a per-pixel depth correction table
is present and the floored (x, y) lies inside the depth frame, replaces
the depth component `d` by `(d - offset)/scale` using that pixel's
correction cell. -/
theorem projectPoint_spec_contract (depthSize : ℕ × ℕ) (ip : IntrinsicParameters)
    (extrinsic : Mat4) (dc : Option (ℕ → PixelCorrection)) (p : Vec3) :
    projectPoint (mkProjectorBase depthSize ip extrinsic dc) p =
      projectPointSpec depthSize ip extrinsic dc p := by
  cases dc with
  | none =>
      by_cases h : ip.depthLensDistortionIsIdentity <;>
        simp [projectPoint, projectPointSpec, mkProjectorBase, h]
  | some table =>
      by_cases h : ip.depthLensDistortionIsIdentity <;>
        simp [projectPoint, projectPointSpec, mkProjectorBase, h]

theorem minAbsFoldl_le (e : Fin 12 → ℚ) (l : List (Fin 12)) : ∀ b : Fin 12,
    |e (l.foldl (fun best i => if |e best| > |e i| then i else best) b)| ≤ |e b| ∧
      ∀ i ∈ l, |e (l.foldl (fun best i => if |e best| > |e i| then i else best) b)| ≤ |e i| := by
  induction l with
  | nil => intro b; exact ⟨le_refl _, by simp⟩
  | cons a l ih =>
      intro b
      rw [List.foldl_cons]
      obtain ⟨ih1, ih2⟩ := ih (if |e b| > |e a| then a else b)
      have hb : |e (if |e b| > |e a| then a else b)| ≤ |e b| := by
        by_cases h : |e b| > |e a|
        · rw [if_pos h]; exact h.le
        · rw [if_neg h]
      have ha : |e (if |e b| > |e a| then a else b)| ≤ |e a| := by
        by_cases h : |e b| > |e a|
        · rw [if_pos h]
        · rw [if_neg h]; exact not_lt.mp h
      refine ⟨ih1.trans hb, ?_⟩
      intro i hi
      rcases List.mem_cons.mp hi with rfl | hi2
      · exact ih1.trans ha
      · exact ih2 i hi2

/-- C1: the calibration solver accumulates the 12x12 normal matrix `A`
as the sum, over tie point pairs, of `row^T row` for the two rows
`(X,Y,Z,1,0,0,0,0,-sX,-sY,-sZ,-s)` and `(0,0,0,0,X,Y,Z,1,-tX,-tY,-tZ,-t)`
with `s = u/W`, `t = v/H`; it selects an eigenvector whose eigenvalue
has smallest magnitude; it divides that eigenvector by its component of
index 11 to form the 3x4 homography; and the persisted 4x4 color
projection equals the matrix whose rows 0 and 1 are rows 0 and 1 of the
homography, whose row 2 is `(0,0,1,0)` and whose row 3 is row 2 of the
homography, right-multiplied by the depth projection matrix. -/
theorem calibrateCameras_pipeline (W H : ℚ) (tps : List TiePointPair)
    (Q : Mat12) (e : Fin 12 → ℚ) (depthProjection : Mat4) :
    (∀ tp : TiePointPair,
      tiePointEq W H tp 0 =
        ![tp.cameraPoint 0, tp.cameraPoint 1, tp.cameraPoint 2, 1, 0, 0, 0, 0,
          -(tp.colorPoint 0 / W * tp.cameraPoint 0), -(tp.colorPoint 0 / W * tp.cameraPoint 1),
          -(tp.colorPoint 0 / W * tp.cameraPoint 2), -(tp.colorPoint 0 / W)] ∧
      tiePointEq W H tp 1 =
        ![0, 0, 0, 0, tp.cameraPoint 0, tp.cameraPoint 1, tp.cameraPoint 2, 1,
          -(tp.colorPoint 1 / H * tp.cameraPoint 0), -(tp.colorPoint 1 / H * tp.cameraPoint 1),
          -(tp.colorPoint 1 / H * tp.cameraPoint 2), -(tp.colorPoint 1 / H)]) ∧
      (∀ i j : Fin 12, accumulateNormalMatrix W H tps i j =
        (tps.map (fun tp => tiePointEq W H tp 0 i * tiePointEq W H tp 0 j +
          tiePointEq W H tp 1 i * tiePointEq W H tp 1 j)).sum) ∧
      (∀ i : Fin 12, |e (minAbsEigenIndex e)| ≤ |e i|) ∧
      (homography Q (minAbsEigenIndex e) =
        fun i j => Q (homIndex i j) (minAbsEigenIndex e) / Q 11 (minAbsEigenIndex e)) ∧
      (∀ h : Fin 3 → Fin 4 → ℚ,
        extendHomography h 0 = h 0 ∧ extendHomography h 1 = h 1 ∧
          extendHomography h 2 = ![0, 0, 1, 0] ∧ extendHomography h 3 = h 2) ∧
      persistedColorProjection Q e depthProjection =
        mat4Mul (extendHomography (homography Q (minAbsEigenIndex e))) depthProjection := by
  refine ⟨?_, ?_, ?_, rfl, ?_, rfl⟩
  · intro tp
    exact ⟨rfl, rfl⟩
  · intro i j
    have hgen : ∀ (l : List TiePointPair) (a : Mat12),
        l.foldl
          (fun a tp => fun i j =>
            a i j + (tiePointEq W H tp 0 i * tiePointEq W H tp 0 j +
              tiePointEq W H tp 1 i * tiePointEq W H tp 1 j)) a i j =
          a i j + (l.map (fun tp => tiePointEq W H tp 0 i * tiePointEq W H tp 0 j +
            tiePointEq W H tp 1 i * tiePointEq W H tp 1 j)).sum := by
      intro l
      induction l with
      | nil => intro a; simp
      | cons tp l ihl =>
          intro a
          rw [List.foldl_cons, ihl, List.map_cons, List.sum_cons]
          ring
    have := hgen tps (fun _ _ => 0)
    rw [accumulateNormalMatrix, this]
    ring
  · intro i
    have hmem : ∀ i : Fin 12, i = 0 ∨ i ∈ (List.finRange 12).drop 1 := by decide
    obtain ⟨h1, h2⟩ := minAbsFoldl_le e ((List.finRange 12).drop 1) 0
    rcases hmem i with rfl | hi
    · exact h1
    · exact h2 i hi
  · intro h
    exact ⟨rfl, rfl, rfl, rfl⟩

end Kinect

namespace Kinect

/-- Witness for C2: with one sub-stream, a completed meta frame (both
missing counters zero) is dispatched as the canonical color-then-depth
pass at the first header of the next meta frame. -/
theorem demux_dispatch_batches_witness :
    (0 : ℕ) < 1 ∧
      (demuxStep 1 (fun _ => true) (fun _ => true)
          (⟨0, 0, 0, fun k => k⟩ : DemuxState ℕ) ⟨1, 0, 99⟩).2 = [(0, false, 0), (0, true, 1)] := by
  refine ⟨by decide, ?_⟩
  rw [(demux_dispatch_batches 1 (by decide)
    (⟨0, 0, 0, fun k => k⟩ : DemuxState ℕ) ⟨1, 0, 99⟩).2.1 ⟨by decide, rfl, rfl⟩]
  decide

end Kinect

namespace Kinect

theorem coxN_succ (n : ℕ) (i : ℤ) (x : ℚ) :
    coxN (n + 1) i x =
      ((x - (i : ℚ)) * coxN n i x + (((i : ℚ) + (n : ℚ) + 2) - x) * coxN n (i + 1) x) /
        ((n : ℚ) + 1) := rfl

theorem coxN_support (n : ℕ) (i : ℤ) (x : ℚ)
    (h : x < (i : ℚ) ∨ (i : ℚ) + (n : ℚ) + 1 ≤ x) : coxN n i x = 0 := by
  induction n generalizing i with
  | zero =>
      rw [coxN]
      rw [if_neg]
      push_cast at h ⊢
      rcases h with h1 | h1
      · intro hc; linarith [hc.1]
      · intro hc; linarith [hc.2]
  | succ n ih =>
      rw [coxN_succ]
      have h1 : coxN n i x = 0 := by
        apply ih
        rcases h with hl | hr
        · exact Or.inl hl
        · refine Or.inr ?_
          push_cast at hr ⊢
          linarith
      have h2 : coxN n (i + 1) x = 0 := by
        apply ih
        rcases h with hl | hr
        · refine Or.inl ?_
          push_cast
          linarith
        · refine Or.inr ?_
          push_cast at hr ⊢
          linarith
      rw [h1, h2]
      ring

theorem coxN_zero_eval (i : ℤ) (x : ℚ) (h1 : (i : ℚ) ≤ x) (h2 : x < (i : ℚ) + 1) :
    coxN 0 i x = 1 := by
  rw [coxN, if_pos ⟨h1, h2⟩]

theorem bs_eq_coxN (i : ℤ) (n : ℕ) (x : ℚ) : bs i n x = coxN n i x := by
  rw [bs]
  by_cases h : x < (i : ℚ) ∨ (i : ℚ) + (n : ℚ) + 1 ≤ x
  · rw [if_pos h, coxN_support n i x h]
  · rw [if_neg h]

theorem getD_replicate_of_lt {α : Type} (n k : ℕ) (a dflt : α) (h : k < n) :
    (List.replicate n a).getD k dflt = a := by
  rw [List.getD_eq_getElem?_getD, List.getElem?_replicate, if_pos h]
  rfl

theorem floor_splineCoord (p seg fs : ℕ) (hp : p < fs) (hseg : 0 < seg) :
    0 ≤ ⌊splineCoord p seg fs⌋ ∧
      (⌊splineCoord p seg fs⌋).toNat < seg ∧
      ((⌊splineCoord p seg fs⌋).toNat : ℚ) ≤ splineCoord p seg fs ∧
      splineCoord p seg fs < ((⌊splineCoord p seg fs⌋).toNat : ℚ) + 1 := by
  have hfs : (0 : ℚ) < (fs : ℚ) := by
    have : 0 < fs := Nat.pos_of_ne_zero (by omega)
    exact_mod_cast this
  have hx0 : 0 ≤ splineCoord p seg fs := by
    apply div_nonneg _ hfs.le
    positivity
  have hfl0 : 0 ≤ ⌊splineCoord p seg fs⌋ := Int.floor_nonneg.mpr hx0
  have hxlt : splineCoord p seg fs < (seg : ℚ) := by
    rw [splineCoord, div_lt_iff₀ hfs]
    have hps : ((p : ℚ) + 1/2) < (fs : ℚ) := by
      have : (p : ℚ) + 1 ≤ (fs : ℚ) := by exact_mod_cast hp
      linarith
    have hsegq : (0 : ℚ) < (seg : ℚ) := by exact_mod_cast hseg
    nlinarith
  have hfllt : ⌊splineCoord p seg fs⌋ < (seg : ℤ) := by
    rw [Int.floor_lt]
    exact_mod_cast hxlt
  refine ⟨hfl0, ?_, ?_, ?_⟩
  · omega
  · have hle := Int.floor_le (splineCoord p seg fs)
    have hc : ((⌊splineCoord p seg fs⌋).toNat : ℚ) = ((⌊splineCoord p seg fs⌋ : ℤ) : ℚ) := by
      exact_mod_cast congrArg (fun z : ℤ => (z : ℚ)) (Int.toNat_of_nonneg hfl0)
    rw [hc]
    exact hle
  · have hlt := Int.lt_floor_add_one (splineCoord p seg fs)
    have hc : ((⌊splineCoord p seg fs⌋).toNat : ℚ) = ((⌊splineCoord p seg fs⌋ : ℤ) : ℚ) := by
      exact_mod_cast congrArg (fun z : ℤ => (z : ℚ)) (Int.toNat_of_nonneg hfl0)
    rw [hc]
    exact hlt

end Kinect

namespace Kinect

theorem deBoor_step (n : ℕ) (j0 : ℤ) (x : ℚ) (hx1 : (j0 : ℚ) ≤ x) (hx2 : x < (j0 : ℚ) + 1)
    (a : ℕ → ℚ) :
    ∑ t in Finset.range (n + 1),
        ((1 - (((j0 : ℚ) + (t : ℚ) + 1) - x) / ((n : ℚ) + 1)) * a (t + 1) +
            ((((j0 : ℚ) + (t : ℚ) + 1) - x) / ((n : ℚ) + 1)) * a t) *
          coxN n (j0 + (t : ℤ) - (n : ℤ)) x =
      ∑ t in Finset.range (n + 2), a t * coxN (n + 1) (j0 + (t : ℤ) - ((n : ℤ) + 1)) x := by
  have hn : ((n : ℚ) + 1) ≠ 0 := by positivity
  have hexp : ∀ t ∈ Finset.range (n + 2),
      a t * coxN (n + 1) (j0 + (t : ℤ) - ((n : ℤ) + 1)) x =
        a t * ((x - ((j0 : ℚ) + (t : ℚ) - ((n : ℚ) + 1))) *
            coxN n (j0 + (t : ℤ) - ((n : ℤ) + 1)) x) / ((n : ℚ) + 1) +
          a t * ((((j0 : ℚ) + (t : ℚ) + 1) - x) *
            coxN n (j0 + (t : ℤ) - (n : ℤ)) x) / ((n : ℚ) + 1) := by
    intro t ht
    rw [coxN_succ]
    have hidx : j0 + (t : ℤ) - ((n : ℤ) + 1) + 1 = j0 + (t : ℤ) - (n : ℤ) := by ring
    rw [hidx]
    have hcast : ((j0 + (t : ℤ) - ((n : ℤ) + 1) : ℤ) : ℚ) =
        (j0 : ℚ) + (t : ℚ) - ((n : ℚ) + 1) := by push_cast; ring
    rw [hcast]
    field_simp
    ring
  rw [Finset.sum_congr rfl hexp, Finset.sum_add_distrib]
  rw [Finset.sum_range_succ'
    (fun t => a t * ((x - ((j0 : ℚ) + (t : ℚ) - ((n : ℚ) + 1))) *
      coxN n (j0 + (t : ℤ) - ((n : ℤ) + 1)) x) / ((n : ℚ) + 1)) (n + 1)]
  rw [Finset.sum_range_succ
    (fun t => a t * ((((j0 : ℚ) + (t : ℚ) + 1) - x) *
      coxN n (j0 + (t : ℤ) - (n : ℤ)) x) / ((n : ℚ) + 1)) (n + 1)]
  have hzero1 : coxN n (j0 + ((0 : ℕ) : ℤ) - ((n : ℤ) + 1)) x = 0 := by
    apply coxN_support
    right
    push_cast
    linarith
  have hzero2 : coxN n (j0 + ((n + 1 : ℕ) : ℤ) - (n : ℤ)) x = 0 := by
    apply coxN_support
    left
    push_cast
    linarith
  rw [hzero1, hzero2]
  simp only [mul_zero, zero_mul, zero_div, add_zero, zero_add]
  rw [← Finset.sum_add_distrib]
  apply Finset.sum_congr rfl
  intro t ht
  have hidx2 : j0 + (((t + 1 : ℕ)) : ℤ) - ((n : ℤ) + 1) = j0 + (t : ℤ) - (n : ℤ) := by
    push_cast; ring
  rw [hidx2]
  push_cast
  field_simp
  ring

theorem cox_sum_window (d S : ℕ) (x : ℚ) (j0 : ℕ) (hj0 : j0 < S)
    (hx1 : (j0 : ℚ) ≤ x) (hx2 : x < (j0 : ℚ) + 1) (f : ℕ → ℚ) :
    ∑ k in Finset.range (S + d), f k * coxN d ((k : ℤ) - (d : ℤ)) x =
      ∑ t in Finset.range (d + 1), f (j0 + t) * coxN d (((j0 + t : ℕ) : ℤ) - (d : ℤ)) x := by
  have hsub : Finset.Ico j0 (j0 + d + 1) ⊆ Finset.range (S + d) := by
    intro k hk
    rw [Finset.mem_Ico] at hk
    rw [Finset.mem_range]
    omega
  have hvanish : ∀ k ∈ Finset.range (S + d), k ∉ Finset.Ico j0 (j0 + d + 1) →
      f k * coxN d ((k : ℤ) - (d : ℤ)) x = 0 := by
    intro k hk hnk
    rw [Finset.mem_Ico] at hnk
    push_neg at hnk
    have hz : coxN d ((k : ℤ) - (d : ℤ)) x = 0 := by
      apply coxN_support
      by_cases hlt : k < j0
      · right
        push_cast
        have hkq : (k : ℚ) + 1 ≤ (j0 : ℚ) := by exact_mod_cast hlt
        linarith
      · left
        have hge : j0 + d + 1 ≤ k := hnk (by omega)
        push_cast
        have hkq : (j0 : ℚ) + (d : ℚ) + 1 ≤ (k : ℚ) := by exact_mod_cast hge
        linarith
    rw [hz, mul_zero]
  rw [← Finset.sum_subset hsub hvanish, Finset.sum_Ico_eq_sum_range]
  have hlen : j0 + d + 1 - j0 = d + 1 := by omega
  rw [hlen]

end Kinect

namespace Kinect

theorem xCollapse_sum (n : ℕ) (j0 : ℕ) (x : ℚ)
    (hx1 : (j0 : ℚ) ≤ x) (hx2 : x < (j0 : ℚ) + 1) (g : ℕ → ℕ → ℚ) (Ky : ℕ → ℚ) :
    ∑ i in Finset.range (n + 2), ∑ j in Finset.range (n + 1),
        xCollapse (n + 1) j0 x g i j * coxN n ((j0 : ℤ) + (j : ℤ) - (n : ℤ)) x * Ky i =
      ∑ i in Finset.range (n + 2), ∑ j in Finset.range (n + 2),
        g i j * coxN (n + 1) ((j0 : ℤ) + (j : ℤ) - ((n : ℤ) + 1)) x * Ky i := by
  apply Finset.sum_congr rfl
  intro i hi
  rw [← Finset.sum_mul, ← Finset.sum_mul]
  congr 1
  have hx1i : (((j0 : ℤ) : ℚ)) ≤ x := by exact_mod_cast hx1
  have hx2i : x < ((j0 : ℤ) : ℚ) + 1 := by exact_mod_cast hx2
  rw [← deBoor_step n (j0 : ℤ) x hx1i hx2i (fun t => g i t)]
  apply Finset.sum_congr rfl
  intro j hj
  have hij : i ≤ n + 1 := by
    have := Finset.mem_range.mp hi
    omega
  simp only [xCollapse]
  rw [if_pos ⟨hij, Finset.mem_range.mp hj⟩]
  push_cast
  ring

theorem yCollapse_sum (n : ℕ) (i0 : ℕ) (y : ℚ)
    (hy1 : (i0 : ℚ) ≤ y) (hy2 : y < (i0 : ℚ) + 1) (h : ℕ → ℕ → ℚ) (Kx : ℕ → ℚ) :
    ∑ i in Finset.range (n + 1), ∑ j in Finset.range (n + 1),
        yCollapse (n + 1) i0 y h i j * Kx j * coxN n ((i0 : ℤ) + (i : ℤ) - (n : ℤ)) y =
      ∑ i in Finset.range (n + 2), ∑ j in Finset.range (n + 1),
        h i j * Kx j * coxN (n + 1) ((i0 : ℤ) + (i : ℤ) - ((n : ℤ) + 1)) y := by
  rw [Finset.sum_comm]
  conv_rhs => rw [Finset.sum_comm]
  apply Finset.sum_congr rfl
  intro j hj
  have hy1i : (((i0 : ℤ) : ℚ)) ≤ y := by exact_mod_cast hy1
  have hy2i : y < ((i0 : ℤ) : ℚ) + 1 := by exact_mod_cast hy2
  rw [← deBoor_step n (i0 : ℤ) y hy1i hy2i (fun t => h t j * Kx j)]
  apply Finset.sum_congr rfl
  intro i hi
  have hjn : j ≤ n + 1 := by
    have := Finset.mem_range.mp hj
    omega
  simp only [yCollapse]
  rw [if_pos ⟨Finset.mem_range.mp hi, hjn⟩]
  push_cast
  ring

theorem deBoorSteps_tensor (j0 i0 : ℕ) (x y : ℚ)
    (hx1 : (j0 : ℚ) ≤ x) (hx2 : x < (j0 : ℚ) + 1)
    (hy1 : (i0 : ℚ) ≤ y) (hy2 : y < (i0 : ℚ) + 1) :
    ∀ (d : ℕ) (g : ℕ → ℕ → ℚ),
      deBoorSteps j0 i0 x y d g 0 0 =
        ∑ i in Finset.range (d + 1), ∑ j in Finset.range (d + 1),
          g i j * coxN d ((j0 : ℤ) + (j : ℤ) - (d : ℤ)) x *
            coxN d ((i0 : ℤ) + (i : ℤ) - (d : ℤ)) y := by
  intro d
  induction d with
  | zero =>
      intro g
      rw [Finset.sum_range_one, Finset.sum_range_one]
      have hxe : coxN 0 ((j0 : ℤ) + ((0 : ℕ) : ℤ) - ((0 : ℕ) : ℤ)) x = 1 := by
        apply coxN_zero_eval
        · push_cast
          linarith
        · push_cast
          linarith
      have hye : coxN 0 ((i0 : ℤ) + ((0 : ℕ) : ℤ) - ((0 : ℕ) : ℤ)) y = 1 := by
        apply coxN_zero_eval
        · push_cast
          linarith
        · push_cast
          linarith
      rw [hxe, hye, mul_one, mul_one]
      rfl
  | succ n ih =>
      intro g
      rw [deBoorSteps, ih]
      rw [yCollapse_sum n i0 y hy1 hy2 (xCollapse (n + 1) j0 x g)
        (fun j => coxN n ((j0 : ℤ) + (j : ℤ) - (n : ℤ)) x)]
      rw [xCollapse_sum n j0 x hx1 hx2 g
        (fun i => coxN (n + 1) ((i0 : ℤ) + (i : ℤ) - ((n : ℤ) + 1)) y)]
      apply Finset.sum_congr rfl
      intro i hi
      apply Finset.sum_congr rfl
      intro j hj
      push_cast
      rfl

end Kinect

namespace Kinect

theorem bspline_window (d segX : ℕ) (cp : ℕ → ℚ) (x y : ℚ)
    (hx1 : (((⌊x⌋).toNat : ℕ) : ℚ) ≤ x) (hx2 : x < (((⌊x⌋).toNat : ℕ) : ℚ) + 1)
    (hy1 : (((⌊y⌋).toNat : ℕ) : ℚ) ≤ y) (hy2 : y < (((⌊y⌋).toNat : ℕ) : ℚ) + 1) :
    bspline d segX cp x y =
      ∑ i in Finset.range (d + 1), ∑ j in Finset.range (d + 1),
        cp (((⌊y⌋).toNat + i) * (segX + d) + ((⌊x⌋).toNat + j)) *
          coxN d (((⌊x⌋).toNat : ℤ) + (j : ℤ) - (d : ℤ)) x *
          coxN d (((⌊y⌋).toNat : ℤ) + (i : ℤ) - (d : ℤ)) y := by
  rw [bspline]
  rw [deBoorSteps_tensor (⌊x⌋).toNat (⌊y⌋).toNat x y hx1 hx2 hy1 hy2 d]
  apply Finset.sum_congr rfl
  intro i _
  apply Finset.sum_congr rfl
  intro j _
  rfl

theorem cox_sum_eq_bspline (d segX segY : ℕ) (c : ℕ → ℚ) (x y : ℚ)
    (hjx : (⌊x⌋).toNat < segX) (hiy : (⌊y⌋).toNat < segY)
    (hx1 : (((⌊x⌋).toNat : ℕ) : ℚ) ≤ x) (hx2 : x < (((⌊x⌋).toNat : ℕ) : ℚ) + 1)
    (hy1 : (((⌊y⌋).toNat : ℕ) : ℚ) ≤ y) (hy2 : y < (((⌊y⌋).toNat : ℕ) : ℚ) + 1) :
    ∑ i in Finset.range (segY + d), ∑ j in Finset.range (segX + d),
        c (i * (segX + d) + j) * coxN d ((i : ℤ) - (d : ℤ)) y *
          coxN d ((j : ℤ) - (d : ℤ)) x =
      bspline d segX c x y := by
  have hinner : ∀ i ∈ Finset.range (segY + d),
      ∑ j in Finset.range (segX + d),
          c (i * (segX + d) + j) * coxN d ((i : ℤ) - (d : ℤ)) y *
            coxN d ((j : ℤ) - (d : ℤ)) x =
        ∑ t in Finset.range (d + 1),
          c (i * (segX + d) + ((⌊x⌋).toNat + t)) * coxN d ((i : ℤ) - (d : ℤ)) y *
            coxN d ((((⌊x⌋).toNat + t : ℕ) : ℤ) - (d : ℤ)) x := by
    intro i _
    exact cox_sum_window d segX x (⌊x⌋).toNat hjx hx1 hx2
      (fun j => c (i * (segX + d) + j) * coxN d ((i : ℤ) - (d : ℤ)) y)
  rw [Finset.sum_congr rfl hinner]
  have hswap : ∀ i ∈ Finset.range (segY + d),
      ∑ t in Finset.range (d + 1),
          c (i * (segX + d) + ((⌊x⌋).toNat + t)) * coxN d ((i : ℤ) - (d : ℤ)) y *
            coxN d ((((⌊x⌋).toNat + t : ℕ) : ℤ) - (d : ℤ)) x =
        (∑ t in Finset.range (d + 1),
            c (i * (segX + d) + ((⌊x⌋).toNat + t)) *
              coxN d ((((⌊x⌋).toNat + t : ℕ) : ℤ) - (d : ℤ)) x) *
          coxN d ((i : ℤ) - (d : ℤ)) y := by
    intro i _
    rw [Finset.sum_mul]
    apply Finset.sum_congr rfl
    intro t _
    ring
  rw [Finset.sum_congr rfl hswap]
  rw [cox_sum_window d segY y (⌊y⌋).toNat hiy hy1 hy2
    (fun i => ∑ t in Finset.range (d + 1),
      c (i * (segX + d) + ((⌊x⌋).toNat + t)) *
        coxN d ((((⌊x⌋).toNat + t : ℕ) : ℤ) - (d : ℤ)) x)]
  rw [bspline_window d segX c x y hx1 hx2 hy1 hy2]
  apply Finset.sum_congr rfl
  intro s _
  rw [Finset.sum_mul]
  apply Finset.sum_congr rfl
  intro t _
  push_cast
  ring

end Kinect

namespace Kinect

theorem getPixelCorrection_eq_tableEntry (dc : DepthCorrection) (px py W h : ℕ)
    (hsx : 0 < dc.segX) (hsy : 0 < dc.segY) (hpx : px < W) (hpy : py < h) :
    dc.getPixelCorrection px py W h = dc.tableEntry px py W h := by
  obtain ⟨hx0, hjx, hx1, hx2⟩ := floor_splineCoord px dc.segX W hpx hsx
  obtain ⟨hy0, hiy, hy1, hy2⟩ := floor_splineCoord py dc.segY h hpy hsy
  simp only [DepthCorrection.getPixelCorrection, DepthCorrection.tableEntry, bs_eq_coxN]
  rw [PixelCorrection.mk.injEq]
  constructor
  · exact cox_sum_eq_bspline dc.degree dc.segX dc.segY (fun k => (dc.cpAt k).scale)
      (splineCoord px dc.segX W) (splineCoord py dc.segY h) hjx hiy hx1 hx2 hy1 hy2
  · exact cox_sum_eq_bspline dc.degree dc.segX dc.segY (fun k => (dc.cpAt k).offset)
      (splineCoord px dc.segX W) (splineCoord py dc.segY h) hjx hiy hx1 hx2 hy1 hy2

theorem bsScratchAccesses_le (n : ℕ) : ∀ k ∈ bsScratchAccesses n, k ≤ n := by
  intro k hk
  rw [bsScratchAccesses] at hk
  rcases List.mem_append.mp hk with h1 | h2
  · have := List.mem_range.mp h1
    omega
  · obtain ⟨ni, hni, hk2⟩ := List.mem_flatMap.mp h2
    obtain ⟨j, hj, hk3⟩ := List.mem_flatMap.mp hk2
    have hjlt := List.mem_range.mp hj
    have hnilt := List.mem_range.mp hni
    have hk4 : k = j ∨ k = j + 1 := by simpa using hk3
    omega

theorem bsplineScratchAccesses_le (d : ℕ) :
    ∀ p ∈ bsplineScratchAccesses d, p.1 ≤ d ∧ p.2 ≤ d := by
  intro p hp
  rw [bsplineScratchAccesses] at hp
  rcases List.mem_append.mp hp with hmain | h3
  swap
  · have hp0 : p = (0, 0) := by simpa using h3
    rw [hp0]
    exact ⟨Nat.zero_le d, Nat.zero_le d⟩
  rcases List.mem_append.mp hmain with h1 | h2
  · obtain ⟨i, hi, hp2⟩ := List.mem_flatMap.mp h1
    obtain ⟨j, hj, hp3⟩ := List.mem_map.mp hp2
    have hilt := List.mem_range.mp hi
    have hjlt := List.mem_range.mp hj
    rw [← hp3]
    constructor <;> simp <;> omega
  · obtain ⟨ni, hni, hp2⟩ := List.mem_flatMap.mp h2
    have hnilt := List.mem_range.mp hni
    rcases List.mem_append.mp hp2 with hx | hy
    · obtain ⟨j, hj, hp3⟩ := List.mem_flatMap.mp hx
      obtain ⟨i, hi, hp4⟩ := List.mem_flatMap.mp hp3
      have hjlt := List.mem_range.mp hj
      have hilt := List.mem_range.mp hi
      have hp5 : p = (i, j) ∨ p = (i, j + 1) := by simpa using hp4
      rcases hp5 with rfl | rfl
      · constructor <;> simp <;> omega
      · constructor <;> simp <;> omega
    · obtain ⟨i, hi, hp3⟩ := List.mem_flatMap.mp hy
      obtain ⟨j, hj, hp4⟩ := List.mem_flatMap.mp hp3
      have hilt := List.mem_range.mp hi
      have hjlt := List.mem_range.mp hj
      have hp5 : p = (i, j) ∨ p = (i + 1, j) := by simpa using hp4
      rcases hp5 with rfl | rfl
      · constructor <;> simp <;> omega
      · constructor <;> simp <;> omega

theorem bsplineControlPointAccesses_lt (d rowLength i0 j0 segX segY : ℕ)
    (hrow : rowLength = segX + d) (hi0 : i0 < segY) (hj0 : j0 < segX) :
    ∀ k ∈ bsplineControlPointAccesses d rowLength i0 j0, k < (segY + d) * (segX + d) := by
  intro k hk
  rw [bsplineControlPointAccesses] at hk
  obtain ⟨i, hi, hk2⟩ := List.mem_flatMap.mp hk
  obtain ⟨j, hj, hk3⟩ := List.mem_map.mp hk2
  have hilt := List.mem_range.mp hi
  have hjlt := List.mem_range.mp hj
  rw [← hk3, hrow]
  have hcol : j0 + j < segX + d := by omega
  have hlt1 : (i0 + i) * (segX + d) + (j0 + j) < (i0 + i + 1) * (segX + d) := by
    rw [Nat.succ_mul]
    omega
  have hle2 : (i0 + i + 1) * (segX + d) ≤ (segY + d) * (segX + d) :=
    Nat.mul_le_mul_right (segX + d) (by omega)
  omega

end Kinect

namespace Kinect

/-- C5 counterexample: the claim admits degrees up to 20, but helper
`bspline`'s scratch array is 16 by 16, and already its initialization
loop at degree 16 accesses entry `[16][16]`, which is out of bounds. -/
theorem bspline_scratch_overflow :
    16 ≤ 20 ∧ (16, 16) ∈ bsplineScratchAccesses 16 ∧
      ¬ ((16, 16).1 < 16 ∧ (16, 16).2 < 16) := by
  refine ⟨by decide, ?_, by decide⟩
  rw [bsplineScratchAccesses]
  apply List.mem_append_left
  apply List.mem_append_left
  rw [List.mem_flatMap]
  exact ⟨16, by decide, List.mem_map.mpr ⟨16, by decide, rfl⟩⟩

/-- C5 (amended): for every `DepthCorrection` whose degree lies in
`[0, 15]` with positive segment counts, and every pixel inside the
frame, both B-spline evaluation paths access only in-bounds entries of
their scratch arrays and of the `(segX+degree)*(segY+degree)`
control-point array, and the two paths compute the same correction
value for the same pixel. -/
theorem bspline_paths_agree (dc : DepthCorrection) (W h px py : ℕ)
    (hdeg : dc.degree ≤ 15) (hsx : 0 < dc.segX) (hsy : 0 < dc.segY)
    (hpx : px < W) (hpy : py < h) :
    dc.getPixelCorrection px py W h = dc.tableEntry px py W h ∧
      (∀ k ∈ bsScratchAccesses dc.degree, k < 21) ∧
      (∀ p ∈ bsplineScratchAccesses dc.degree, p.1 < 16 ∧ p.2 < 16) ∧
      (∀ k ∈ bsplineControlPointAccesses dc.degree (dc.segX + dc.degree)
          (⌊splineCoord py dc.segY h⌋).toNat (⌊splineCoord px dc.segX W⌋).toNat,
        k < (dc.segY + dc.degree) * (dc.segX + dc.degree)) := by
  obtain ⟨hy0, hiy, hy1, hy2⟩ := floor_splineCoord py dc.segY h hpy hsy
  obtain ⟨hx0, hjx, hx1, hx2⟩ := floor_splineCoord px dc.segX W hpx hsx
  refine ⟨getPixelCorrection_eq_tableEntry dc px py W h hsx hsy hpx hpy, ?_, ?_, ?_⟩
  · intro k hk
    have := bsScratchAccesses_le dc.degree k hk
    omega
  · intro p hp
    have := bsplineScratchAccesses_le dc.degree p hp
    omega
  · exact bsplineControlPointAccesses_lt dc.degree (dc.segX + dc.degree)
      (⌊splineCoord py dc.segY h⌋).toNat (⌊splineCoord px dc.segX W⌋).toNat
      dc.segX dc.segY rfl hiy hjx

/-- Witness for C5 at a concrete degree-1 depth correction object and
pixel (0,0) of a 2 by 2 frame. -/
theorem bspline_paths_agree_witness :
    (DepthCorrection.mk0 1 1 1).degree ≤ 15 ∧
      (DepthCorrection.mk0 1 1 1).getPixelCorrection 0 0 2 2 =
        (DepthCorrection.mk0 1 1 1).tableEntry 0 0 2 2 :=
  ⟨by decide,
    (bspline_paths_agree (DepthCorrection.mk0 1 1 1) 2 2 0 0
      (by decide) (by decide) (by decide) (by decide) (by decide)).1⟩

/-- C4 counterexample: a `DepthCorrection` constructed with degree 0
and segment counts (0,0) has an empty control-point array; the
single-pixel query then returns scale 0, offset 0, so the correction
formula maps depth 5 to 0, not to 5. -/
theorem depthCorrection_degree0_zero_segments :
    (DepthCorrection.mk0 0 0 0).getPixelCorrection 0 0 1 1 =
        (⟨0, 0⟩ : PixelCorrection) ∧
      (DepthCorrection.mk0 0 0 0).getPixelCorrection 0 0 1 1 ≠
        (⟨1, 0⟩ : PixelCorrection) ∧
      PixelCorrection.correct ⟨0, 0⟩ 5 = 0 ∧ (0 : ℚ) ≠ 5 := by
  refine ⟨by decide, by decide, ?_, by norm_num⟩
  rw [PixelCorrection.correct]
  norm_num

end Kinect

namespace Kinect

/-- C4 (amended): for a `DepthCorrection` constructed with degree 0 and
positive segment counts, every per-pixel correction it produces - both
via the single-pixel query and via every entry of the dense table - has
scale 1 and offset 0, so applying `depth*scale + offset` returns the
raw depth unchanged for every pixel of every frame size. -/
theorem depthCorrection_degree0_identity (sx sy W h px py : ℕ)
    (hsx : 0 < sx) (hsy : 0 < sy) (hpx : px < W) (hpy : py < h) :
    (DepthCorrection.mk0 0 sx sy).getPixelCorrection px py W h = (⟨1, 0⟩ : PixelCorrection) ∧
      (DepthCorrection.mk0 0 sx sy).tableEntry px py W h = (⟨1, 0⟩ : PixelCorrection) ∧
      ∀ depth : ℚ, PixelCorrection.correct ⟨1, 0⟩ depth = depth := by
  have hiy := floor_splineCoord py sy h hpy hsy
  have hjx := floor_splineCoord px sx W hpx hsx
  have hidx : (⌊splineCoord py sy h⌋).toNat * sx + (⌊splineCoord px sx W⌋).toNat < sy * sx := by
    have h1 := hiy.2.1
    have h2 := hjx.2.1
    have hlt1 : (⌊splineCoord py sy h⌋).toNat * sx + (⌊splineCoord px sx W⌋).toNat <
        ((⌊splineCoord py sy h⌋).toNat + 1) * sx := by
      rw [Nat.succ_mul]
      omega
    have hle2 : ((⌊splineCoord py sy h⌋).toNat + 1) * sx ≤ sy * sx :=
      Nat.mul_le_mul_right sx (by omega)
    omega
  have hcp : (DepthCorrection.mk0 0 sx sy).cpAt
      (((⌊splineCoord py sy h⌋).toNat + 0) * (sx + 0) + ((⌊splineCoord px sx W⌋).toNat + 0)) =
        (⟨1, 0⟩ : PixelCorrection) := by
    rw [DepthCorrection.cpAt]
    show (List.replicate ((sy + 0) * (sx + 0)) (⟨1, 0⟩ : PixelCorrection)).getD _ ⟨0, 0⟩ =
      (⟨1, 0⟩ : PixelCorrection)
    apply getD_replicate_of_lt
    simpa using hidx
  have htab : (DepthCorrection.mk0 0 sx sy).tableEntry px py W h = (⟨1, 0⟩ : PixelCorrection) := by
    have hre : (DepthCorrection.mk0 0 sx sy).tableEntry px py W h =
        { scale := ((DepthCorrection.mk0 0 sx sy).cpAt
            (((⌊splineCoord py sy h⌋).toNat + 0) * (sx + 0) +
              ((⌊splineCoord px sx W⌋).toNat + 0))).scale,
          offset := ((DepthCorrection.mk0 0 sx sy).cpAt
            (((⌊splineCoord py sy h⌋).toNat + 0) * (sx + 0) +
              ((⌊splineCoord px sx W⌋).toNat + 0))).offset } := rfl
    rw [hre, hcp]
  refine ⟨?_, htab, ?_⟩
  · rw [getPixelCorrection_eq_tableEntry (DepthCorrection.mk0 0 sx sy) px py W h hsx hsy hpx hpy]
    exact htab
  · intro depth
    rw [PixelCorrection.correct]
    ring

/-- Witness for C4 at segment counts (1,1), frame 2 by 2, pixel (1,1),
depth 37. -/
theorem depthCorrection_degree0_identity_witness :
    (DepthCorrection.mk0 0 1 1).getPixelCorrection 1 1 2 2 = (⟨1, 0⟩ : PixelCorrection) ∧
      PixelCorrection.correct ⟨1, 0⟩ 37 = 37 :=
  ⟨(depthCorrection_degree0_identity 1 1 2 2 1 1 (by decide) (by decide)
      (by decide) (by decide)).1,
    (depthCorrection_degree0_identity 1 1 2 2 1 1 (by decide) (by decide)
      (by decide) (by decide)).2.2 37⟩

end Kinect
